import Mathlib

/-!
Shallow embedding of the room game-session engine of `app.py` (the card game
server).  Python dataclasses become structures, dictionaries become
association lists with first-key-wins lookup, and the ambient randomness of
the source (deck shuffle, bot think delay, random auto-lock card, reveal
order) is made explicit as parameters.  Floating point pressure values are
modelled over the real numbers.
-/

namespace Cardgame

/-- A card: the source identifies cards by the (suit, rank) pair; the other
dict fields (label, symbol, color, id) are derived from it. -/
structure Card where
  suit : String
  rank : Nat
deriving DecidableEq, Repr

/-- SUITS of `app.py`. -/
def SUITS : List String := ["S", "H", "D", "C"]

/-- RANKS of `app.py`: the integers 2..14. -/
def RANKS : List Nat := List.range' 2 13

/-- The card id string, as built in `new_deck`: f-string suit-rank. -/
def card_id (c : Card) : String := c.suit ++ "-" ++ toString c.rank

/-- The 52-card deck enumerated by `new_deck` before its `random.shuffle`;
the shuffle itself is modelled by quantifying over decks. -/
def new_deck_base : List Card :=
  SUITS.flatMap (fun s => RANKS.map (fun r => ⟨s, r⟩))

/-- `rank_value` of `app.py`. -/
def rank_value (c : Card) : Nat := c.rank

/-- The `Player` dataclass. -/
structure Player where
  id : String
  name : String
  is_bot : Bool := false
  score : Nat := 0
  hand : List Card := []
  locked : Bool := false
  win_streak : Nat := 0
deriving DecidableEq, Repr

/-- One entry of `room.history` (appended in `do_reveal_and_advance`). -/
structure HistEntry where
  round : Nat
  winnerId : Option String
  explosion : Bool
  topRank : Nat
  winnerCard : Option Card
  points : Nat
  joker : Bool
deriving DecidableEq, Repr

/-- The `Room` dataclass, restricted to the game-state fields (sockets,
timer task handles and the transient presentation records are connection
plumbing outside the state the claims speak about). -/
structure Room where
  code : String
  target_size : Int := 4
  host_id : Option String := none
  phase : String := "lobby"
  round : Nat := 0
  rounds_played : Nat := 0
  players : List Player := []
  pending_plays : List (String × Card) := []
  history : List HistEntry := []
  starting : Bool := false
  advancing : Bool := false
  aftershock_next : Bool := false
deriving DecidableEq, Repr

/-- Python dict read `d.get(k)`: first binding of the key wins. -/
def dictGet (k : String) : List (String × Card) → Option Card
  | [] => none
  | kv :: rest => if kv.1 = k then some kv.2 else dictGet k rest

/-- Python dict write `d[k] = v`: replace the binding if present, else append. -/
def dictInsert (k : String) (v : Card) : List (String × Card) → List (String × Card)
  | [] => [(k, v)]
  | kv :: rest =>
      if kv.1 = k then (k, v) :: rest else kv :: dictInsert k v rest

/-- `find_player` of `app.py`: first player with the given id. -/
def find_player (room : Room) (player_id : String) : Option Player :=
  room.players.find? (fun p => p.id = player_id)

/-- `human_players` of `app.py`. -/
def human_players (room : Room) : List Player :=
  room.players.filter (fun p => !p.is_bot)

/-- `bot_players` of `app.py`. -/
def bot_players (room : Room) : List Player :=
  room.players.filter (fun p => p.is_bot)

/-- A bot created by `ensure_bot_fill` (fresh random id modelled as a
supplied id). -/
def mk_bot (bid : String) (num : Nat) : Player :=
  { id := bid, name := "Bot " ++ toString num, is_bot := true }

/-- `ensure_bot_fill` of `app.py`: append bots until the clamped target size
is reached; ids come from the supply list standing in for `make_player_id`. -/
def ensure_bot_fill (botIds : List String) (room : Room) : Room :=
  let target : Int := max 2 (min 6 room.target_size)
  let need : Nat := (target - room.players.length).toNat
  let base : Nat := (room.players.filter (fun p => p.is_bot)).length
  { room with
    players := room.players ++
      ((botIds.take need).enum.map (fun iv => mk_bot iv.2 (base + iv.1 + 1))) }

/-- `clear_bots` of `app.py`. -/
def clear_bots (room : Room) : Room :=
  { room with players := room.players.filter (fun p => !p.is_bot) }

/-- The dealing loop of `deal_equally`: player k receives
`deck[i + k*each : i + k*each + each]`, exactly the running-offset slices of
the source. -/
def assign_hands (deckT : List Card) (each : Nat) : Nat → List Player → List Player
  | _, [] => []
  | i, p :: ps =>
      { p with hand := (deckT.drop i).take each, locked := false } ::
        assign_hands deckT each (i + each) ps

/-- `deal_equally` of `app.py`, with the shuffled deck passed explicitly. -/
def deal_equally (deck : List Card) (room : Room) : Room :=
  let n := room.players.length
  if n = 0 then room
  else
    let each := deck.length / n
    let deckT := deck.take (each * n)
    { room with players := assign_hands deckT each 0 room.players }

/-- `all_locked` of `app.py`. -/
def all_locked (room : Room) : Bool :=
  !room.players.isEmpty && room.players.all (fun p => p.locked)

/-- `is_joker_round` of `app.py`: every 5th round (5, 10, 15 ...). -/
def is_joker_round (room : Room) : Bool :=
  decide (0 < room.round) && decide (room.round % 5 = 0)

/-- `round_point_value` of `app.py`. -/
def round_point_value (room : Room) (winner : Player) : Nat :=
  if room.aftershock_next then 2
  else if 2 ≤ winner.win_streak then 2
  else 1

/-- The sentinel card substituted in `do_reveal_and_advance` when a pending
play is missing. -/
def sentinelCard : Card := ⟨"S", 2⟩

/-- The `plays` list of `do_reveal_and_advance`: for each id of the reveal
order, its pending play or the sentinel. -/
def reveal_plays (room : Room) (order : List String) : List (String × Card) :=
  order.map (fun pid => (pid, (dictGet pid room.pending_plays).getD sentinelCard))

/-- The `values` list of `do_reveal_and_advance` (player id, card rank). -/
def reveal_values (room : Room) (order : List String) : List (String × Nat) :=
  (reveal_plays room order).map (fun x => (x.1, rank_value x.2))

/-- Python `min(...)` / `max(...)` over the nonempty rank list (0 when the
list is empty, as in the source's else branch). -/
def best_value (joker : Bool) (ranks : List Nat) : Nat :=
  match ranks with
  | [] => 0
  | v :: vs => if joker then vs.foldl Nat.min v else vs.foldl Nat.max v

/-- The outcome record computed by lines 497-557 of `do_reveal_and_advance`
before any score is mutated. -/
structure RevealCalc where
  joker : Bool
  bestVal : Nat
  topIds : List String
  explosion : Bool
  winnerId : Option String
  winnerCard : Option Card
  points : Nat
deriving DecidableEq, Repr

/-- The `best_val` of `do_reveal_and_advance`: min of the played ranks on a
joker round, max otherwise. -/
def reveal_best (room : Room) (order : List String) : Nat :=
  best_value (is_joker_round room) ((reveal_values room order).map (fun x => x.2))

/-- The `top_ids` of `do_reveal_and_advance`: the players whose play has the
extremal rank. -/
def reveal_top_ids (room : Room) (order : List String) : List String :=
  ((reveal_values room order).filter
    (fun x => x.2 = reveal_best room order)).map (fun x => x.1)

/-- The winner-points computation of `do_reveal_and_advance` (lines
528-532): look the winner up and apply `round_point_value`. -/
def winner_points (room : Room) (winnerId : Option String) : Nat :=
  match winnerId with
  | none => 0
  | some wid =>
      match find_player room wid with
      | some w => round_point_value room w
      | none => 0

/-- The pure computation part of `do_reveal_and_advance` (reveal order, tie
detection, winner and point value), with the shuffled `order` explicit. -/
def compute_reveal (room : Room) (order : List String) : RevealCalc :=
  let topIds := reveal_top_ids room order
  let explosion := decide (1 < topIds.length)
  let winnerId : Option String := if explosion then none else topIds.head?
  let points : Nat := winner_points room winnerId
  let winnerCard : Option Card :=
    match winnerId with
    | none => none
    | some wid => ((reveal_plays room order).find? (fun x => x.1 = wid)).map (fun x => x.2)
  ⟨is_joker_round room, reveal_best room order, topIds, explosion, winnerId, winnerCard, points⟩

/-- The scoring block of `do_reveal_and_advance` (lines 569-586): on an
explosion all streaks reset and the aftershock flag is set; on a win the
winner gets the points and a streak increment, everyone else's streak
resets, and the aftershock flag clears. -/
def apply_scoring (room : Room) (rc : RevealCalc) : Room :=
  if rc.explosion then
    { room with
      players := room.players.map (fun p => { p with win_streak := 0 }),
      aftershock_next := true }
  else
    match rc.winnerId with
    | some wid =>
        { room with
          players := room.players.map (fun p =>
            if p.id = wid then
              { p with score := p.score + rc.points, win_streak := p.win_streak + 1 }
            else
              { p with win_streak := 0 }),
          aftershock_next := false }
    | none => { room with aftershock_next := false }

/-- The bookkeeping tail of `do_reveal_and_advance` (lines 588-622):
history push (bounded to 10), round counters, lock/pending reset, and the
advance to lock_in or finished. -/
def finish_round (room : Room) (entry : HistEntry) : Room :=
  let room2 : Room :=
    { room with
      history := (entry :: room.history).take 10,
      rounds_played := room.rounds_played + 1,
      players := room.players.map (fun p => { p with locked := false }),
      pending_plays := [] }
  if room2.players.any (fun p => 0 < p.hand.length) then
    { room2 with round := room2.round + 1, phase := "lock_in" }
  else
    { room2 with phase := "finished" }

/-- The mutation part of `do_reveal_and_advance` (applied after the reveal
pacing delay): scoring, streaks, aftershock flag, history, lock reset and
the phase/round advance. -/
def apply_reveal (room : Room) (rc : RevealCalc) : Room :=
  finish_round (apply_scoring room rc)
    ⟨room.round, rc.winnerId, rc.explosion, rc.bestVal, rc.winnerCard, rc.points, rc.joker⟩

/-- `do_reveal_and_advance` of `app.py` as one state step (the broadcasts
and the pacing sleep carry no game state). -/
def do_reveal_and_advance (room : Room) (order : List String) : Room :=
  apply_reveal { room with phase := "reveal" } (compute_reveal room order)

/-- `reset_to_lobby` of `app.py`. -/
def reset_to_lobby (room : Room) : Room :=
  { room with
    phase := "lobby", round := 0, rounds_played := 0,
    pending_plays := [], history := [], aftershock_next := false,
    players := room.players.map (fun p =>
      { p with score := 0, win_streak := 0, locked := false, hand := [] }) }

/-- `start_game` of `app.py`: guarded on lobby phase, the `starting` flag
and at least one human; bot fill, full reset, then the deal. -/
def start_game (deck : List Card) (botIds : List String) (room : Room) : Room :=
  if room.phase ≠ "lobby" then room
  else if room.starting then room
  else if (human_players room).length < 1 then room
  else
    let room1 := ensure_bot_fill botIds room
    let room2 :=
      { room1 with
        round := 1, rounds_played := 0, phase := "lock_in",
        pending_plays := [], history := [], aftershock_next := false,
        players := room1.players.map (fun p =>
          { p with score := 0, win_streak := 0, locked := false, hand := [] }) }
    deal_equally deck room2

/-- `restart_same_lobby` of `app.py`: keep the humans, repair the host, then
call `start_game`. -/
def restart_same_lobby (deck : List Card) (botIds : List String) (room : Room) : Room :=
  let humans := human_players room
  let room1 := { room with players := humans }
  let hostOk :=
    match room1.host_id with
    | none => false
    | some h => (find_player room1 h).isSome
  let room2 :=
    if hostOk then room1
    else { room1 with host_id := humans.head?.map (fun p => p.id) }
  start_game deck botIds room2

/-- The `lock` branch of the websocket handler `ws_room` (lines 2025-2055):
returns the new room plus the error message sent back, if any.  Every
guard in the source is a bare `continue`, so no branch produces a message. -/
def lock_cmd (room : Room) (player_id : String) (cardId : String) :
    Room × Option String :=
  if room.phase ≠ "lock_in" then (room, none)
  else
    match find_player room player_id with
    | none => (room, none)
    | some you =>
        if you.locked then (room, none)
        else if cardId = "" then (room, none)
        else
          match you.hand.findIdx? (fun c => card_id c = cardId) with
          | none => (room, none)
          | some idx =>
              let chosen := you.hand.getD idx sentinelCard
              ({ room with
                 players := room.players.map (fun p =>
                   if p.id = player_id then
                     { p with hand := p.hand.eraseIdx idx, locked := true }
                   else p),
                 pending_plays := dictInsert player_id chosen room.pending_plays },
               none)

/-- The disconnect cleanup of `ws_room` (lines 2063-2075): drop the player,
hand the host to the first remaining human, force-finish when no human is
left.  Note that `pending_plays` is not touched. -/
def remove_player (room : Room) (player_id : String) : Room :=
  let room1 := { room with players := room.players.filter (fun p => p.id ≠ player_id) }
  let room2 :=
    if room1.host_id = some player_id then
      { room1 with host_id := (human_players room1).head?.map (fun p => p.id) }
    else room1
  if (human_players room2).length < 1 then { room2 with phase := "finished" }
  else room2

/-- The auto-lock sweep of `timer_countdown` (lines 372-377), threading the
players list and the pending-plays dict through the loop.  The uniformly
random `random.choice(p.hand)` is modelled by the `choice` parameter giving
an arbitrary in-hand index per player id. -/
def auto_lock_players (choice : String → Nat) :
    List Player → List (String × Card) → List Player × List (String × Card)
  | [], pend => ([], pend)
  | p :: ps, pend =>
      if h : p.locked = false ∧ p.hand ≠ [] then
        let i : Fin p.hand.length :=
          ⟨choice p.id % p.hand.length,
           Nat.mod_lt _ (List.length_pos.mpr h.2)⟩
        let chosen := p.hand.get i
        let p1 := { p with hand := p.hand.erase chosen, locked := true }
        let rest := auto_lock_players choice ps (dictInsert p.id chosen pend)
        (p1 :: rest.1, rest.2)
      else
        let rest := auto_lock_players choice ps pend
        (p :: rest.1, rest.2)

/-- The room-level effect of the deadline branch of `timer_countdown`. -/
def auto_lock (choice : String → Nat) (room : Room) : Room :=
  let res := auto_lock_players choice room.players room.pending_plays
  { room with players := res.1, pending_plays := res.2 }

/-- `bot_pick_index` of `app.py`.  Python `int()` on the nonnegative float
`skew * (n - 1)` truncates toward zero, i.e. takes the floor. -/
noncomputable def bot_pick_index (n : Nat) (pressure : ℝ) : Int :=
  if n ≤ 1 then 0
  else
    let p : ℝ := max 0 (min 1 pressure)
    let skew : ℝ := p ^ (1.2 : ℝ)
    let idx : Int := ⌊skew * ((n : ℝ) - 1)⌋
    max 0 (min ((n : Int) - 1) idx)

/-- `estimate_tie_risk` of `app.py` (all its float arithmetic is exact in ℚ). -/
def estimate_tie_risk (rank : Nat) (n_players : Nat) : ℚ :=
  let mid : Int := 8
  let dist : Int := |(rank : Int) - mid|
  let base : ℚ := 0.10 + 0.05 * ((max 0 ((n_players : Int) - 2) : Int) : ℚ)
  let adjust : ℚ := -0.02 * ((min dist 6 : Int) : ℚ)
  max 0.02 (min 0.60 (base + adjust))

/-- Python `max(scores)` of `bot_choose` (0 when no players). -/
def leader_score (room : Room) : Nat :=
  match room.players.map (fun p => p.score) with
  | [] => 0
  | v :: vs => vs.foldl Nat.max v

/-- The pressure ladder of `bot_choose` (trailing thresholds plus the two
endgame ramps). -/
def bot_pressure (trailing : Int) (rounds_left : Nat) : ℚ :=
  let p0 : ℚ :=
    if 3 ≤ trailing then 0.92
    else if trailing = 2 then 0.82
    else if trailing = 1 then 0.66
    else if trailing = 0 then 0.46
    else 0.30
  let p1 : ℚ := if rounds_left ≤ 4 then min 0.96 (p0 + 0.18) else p0
  if rounds_left ≤ 2 then min 0.98 (p1 + 0.12) else p1

/-- `bot_choose` of `app.py`: sort the hand by rank, pick the pressure index
(joker rounds invert), apply the tie-risk nudge, remove the card and record
the locked play. -/
noncomputable def bot_choose (room : Room) (bot : Player) : Room :=
  if room.phase ≠ "lock_in" then room
  else if bot.locked ∨ bot.hand = [] then room
  else
    let joker := is_joker_round room
    let hand_sorted := List.insertionSort (fun a b => a.rank ≤ b.rank) bot.hand
    let n := hand_sorted.length
    let trailing : Int := (leader_score room : Int) - (bot.score : Int)
    let rounds_left := bot.hand.length
    let pressure := bot_pressure trailing rounds_left
    let chosen : Card :=
      if joker then
        let pressure_low : ℚ := if 1 ≤ trailing then 0.10 else 0.22
        hand_sorted.getD (bot_pick_index n (pressure_low : ℝ)).toNat sentinelCard
      else
        let idx := bot_pick_index n (pressure : ℝ)
        let chosen0 := hand_sorted.getD idx.toNat sentinelCard
        let risk := estimate_tie_risk (rank_value chosen0) room.players.length
        if 0.28 < risk ∧ 3 ≤ n then
          let idx1 : Int :=
            if 1 ≤ trailing then min ((n : Int) - 1) (idx + 1)
            else max 0 (idx - 1)
          hand_sorted.getD idx1.toNat sentinelCard
        else chosen0
    { room with
      players := room.players.map (fun p =>
        if p.id = bot.id then
          { p with hand := p.hand.eraseP (fun c => card_id c = card_id chosen),
                   locked := true }
        else p),
      pending_plays := dictInsert bot.id chosen room.pending_plays }

/-- One in-game state mutation of a running room, as dispatched by the
websocket handler and the timers: a human lock, a bot lock, the deadline
auto-lock, the reveal-and-advance step, or a disconnect removal.  `start`
and `restart` are deliberately outside: they are the reset commands. -/
inductive GameStep : Room → Room → Prop
  | lock (r : Room) (pid cid : String) : GameStep r (lock_cmd r pid cid).1
  | bot (r : Room) (b : Player) (hb : b ∈ r.players) : GameStep r (bot_choose r b)
  | auto (r : Room) (choice : String → Nat) : GameStep r (auto_lock choice r)
  | reveal (r : Room) (order : List String) : GameStep r (do_reveal_and_advance r order)
  | leave (r : Room) (pid : String) : GameStep r (remove_player r pid)

/-! ### Shared helper lemmas -/

theorem find_player_mem {room : Room} {pid : String} {p : Player}
    (h : find_player room pid = some p) : p ∈ room.players ∧ p.id = pid := by
  refine ⟨List.mem_of_find?_eq_some h, ?_⟩
  have := List.find?_some h
  simpa using this

theorem mem_keys_dictInsert {k k0 : String} {v : Card} :
    ∀ {l : List (String × Card)},
      k ∈ (dictInsert k0 v l).map Prod.fst → k = k0 ∨ k ∈ l.map Prod.fst := by
  intro l
  induction l with
  | nil => simp [dictInsert]
  | cons kv rest ih =>
      by_cases hk : kv.1 = k0
      · intro h
        simp only [dictInsert, hk, if_true, List.map_cons, List.mem_cons] at h
        rcases h with h | h
        · exact Or.inl h
        · exact Or.inr (by simp [h])
      · intro h
        simp only [dictInsert, hk, if_false, List.map_cons, List.mem_cons] at h
        rcases h with h | h
        · exact Or.inr (by simp [h])
        · rcases ih h with h2 | h2
          · exact Or.inl h2
          · exact Or.inr (by simp [h2])

theorem dictGet_dictInsert_self (k : String) (v : Card) :
    ∀ (l : List (String × Card)), dictGet k (dictInsert k v l) = some v := by
  intro l
  induction l with
  | nil => simp [dictInsert, dictGet]
  | cons kv rest ih =>
      by_cases hk : kv.1 = k
      · simp [dictInsert, hk, dictGet]
      · simp [dictInsert, hk, dictGet, ih]

theorem dictGet_dictInsert_ne {k k0 : String} (hne : k ≠ k0) (v : Card) :
    ∀ (l : List (String × Card)), dictGet k (dictInsert k0 v l) = dictGet k l := by
  intro l
  induction l with
  | nil => simp [dictInsert, dictGet, Ne.symm hne]
  | cons kv rest ih =>
      by_cases hk : kv.1 = k0
      · simp [dictInsert, dictGet, hk, Ne.symm hne]
      · by_cases hk2 : kv.1 = k
        · simp [dictInsert, dictGet, hk, hk2, hne]
        · simp [dictInsert, dictGet, hk, hk2, ih]

/-! ### C10: the bot index is always a valid index -/

/-- Claim C10: for every hand size n at least 1 and every real pressure
input, `bot_pick_index` returns an integer in the range 0 .. n-1, so
indexing the rank-sorted hand with the result never goes out of bounds. -/
theorem bot_pick_index_in_range (n : Nat) (pressure : ℝ) (hn : 1 ≤ n) :
    0 ≤ bot_pick_index n pressure ∧ bot_pick_index n pressure ≤ (n : Int) - 1 := by
  unfold bot_pick_index
  split
  · next hle =>
      have : n = 1 := le_antisymm hle hn
      subst this
      exact ⟨le_refl 0, by norm_num⟩
  · next hgt =>
      refine ⟨le_max_left _ _, max_le ?_ (min_le_left _ _)⟩
      have h2 : 2 ≤ n := by omega
      have : (2 : Int) ≤ (n : Int) := by exact_mod_cast h2
      omega

theorem bot_pick_index_in_range_witness :
    0 ≤ bot_pick_index 1 37 ∧ bot_pick_index 1 37 ≤ ((1 : Nat) : Int) - 1 :=
  bot_pick_index_in_range 1 37 (by norm_num)

/-! ### C7: the bot index formula truncates, it does not round -/

/-- Modelled from the spec: the claimed index formula for the bot, namely
round(pressure^1.2 x (n-1)) with the pressure clamped to the unit interval
and the result clamped to 0 .. n-1. -/
noncomputable def spec_round_index (n : Nat) (pressure : ℝ) : Int :=
  max 0 (min ((n : Int) - 1)
    (round ((max 0 (min 1 pressure)) ^ (1.2 : ℝ) * ((n : ℝ) - 1))))

theorem skew_bounds_09 :
    (0.81 : ℝ) < (0.9 : ℝ) ^ (1.2 : ℝ) ∧ (0.9 : ℝ) ^ (1.2 : ℝ) < 0.9 := by
  constructor
  · have h := Real.rpow_lt_rpow_of_exponent_gt (x := (0.9 : ℝ))
      (by norm_num) (by norm_num) (show (1.2 : ℝ) < 2 by norm_num)
    have h2 : (0.9 : ℝ) ^ (2 : ℝ) = 0.81 := by
      rw [show (2 : ℝ) = ((2 : Nat) : ℝ) by norm_num, Real.rpow_natCast]
      norm_num
    linarith
  · have h := Real.rpow_lt_rpow_of_exponent_gt (x := (0.9 : ℝ))
      (by norm_num) (by norm_num) (show (1 : ℝ) < 1.2 by norm_num)
    rwa [Real.rpow_one] at h

/-- Counterexample to claim C7: at hand size 3 and pressure 0.9 the code
(Python `int`, i.e. truncation) gives index 1 while the spec's rounding
formula gives index 2. -/
theorem bot_pick_index_truncates_not_rounds :
    bot_pick_index 3 0.9 ≠ spec_round_index 3 0.9 := by
  obtain ⟨hgt, hlt⟩ := skew_bounds_09
  have hclamp : max 0 (min 1 (0.9 : ℝ)) = 0.9 := by norm_num
  have hn3 : ((3 : Nat) : ℝ) - 1 = 2 := by norm_num
  have hfloor : ⌊(max 0 (min 1 (0.9 : ℝ))) ^ (1.2 : ℝ) * (((3 : Nat) : ℝ) - 1)⌋ = 1 := by
    rw [hclamp, hn3, Int.floor_eq_iff]
    constructor
    · push_cast
      linarith
    · push_cast
      linarith
  have hround : round ((max 0 (min 1 (0.9 : ℝ))) ^ (1.2 : ℝ) * (((3 : Nat) : ℝ) - 1)) = 2 := by
    rw [hclamp, hn3, round_eq, Int.floor_eq_iff]
    constructor
    · push_cast
      linarith
    · push_cast
      linarith
  have hL : bot_pick_index 3 0.9 = 1 := by
    unfold bot_pick_index
    rw [if_neg (by norm_num)]
    dsimp only
    rw [hfloor]
    norm_num
  have hR : spec_round_index 3 0.9 = 2 := by
    unfold spec_round_index
    rw [hround]
    norm_num
  rw [hL, hR]
  decide

/-- Claim C7 as amended: for every hand size n at least 2 and every real
pressure, the bot's target index equals floor(clamped pressure^1.2 x (n-1))
-- truncation, not rounding; this value already lies in 0 .. n-1, so the
final clamp of the code never changes it. -/
theorem bot_pick_index_floor_formula (n : Nat) (pressure : ℝ) (hn : 2 ≤ n) :
    bot_pick_index n pressure =
      ⌊(max 0 (min 1 pressure)) ^ (1.2 : ℝ) * ((n : ℝ) - 1)⌋ := by
  have hp0 : (0 : ℝ) ≤ max 0 (min 1 pressure) := le_max_left _ _
  have hp1 : max 0 (min 1 pressure) ≤ 1 := max_le (by norm_num) (min_le_left _ _)
  have hs0 : (0 : ℝ) ≤ (max 0 (min 1 pressure)) ^ (1.2 : ℝ) :=
    Real.rpow_nonneg hp0 _
  have hs1 : (max 0 (min 1 pressure)) ^ (1.2 : ℝ) ≤ 1 :=
    Real.rpow_le_one hp0 hp1 (by norm_num)
  have hn1 : (0 : ℝ) ≤ (n : ℝ) - 1 := by
    have : (1 : ℝ) ≤ (n : ℝ) := by exact_mod_cast Nat.one_le_of_lt hn
    linarith
  have hprod0 : (0 : ℝ) ≤ (max 0 (min 1 pressure)) ^ (1.2 : ℝ) * ((n : ℝ) - 1) :=
    mul_nonneg hs0 hn1
  have hprod1 : (max 0 (min 1 pressure)) ^ (1.2 : ℝ) * ((n : ℝ) - 1) ≤ (n : ℝ) - 1 :=
    mul_le_of_le_one_left hn1 hs1
  have hfl0 : 0 ≤ ⌊(max 0 (min 1 pressure)) ^ (1.2 : ℝ) * ((n : ℝ) - 1)⌋ :=
    Int.floor_nonneg.mpr hprod0
  have hcast : ⌊(n : ℝ) - 1⌋ = (n : Int) - 1 := by
    rw [show ((n : ℝ) - 1) = (((n : Int) - 1 : Int) : ℝ) by push_cast; ring]
    exact Int.floor_intCast _
  have hfl1 : ⌊(max 0 (min 1 pressure)) ^ (1.2 : ℝ) * ((n : ℝ) - 1)⌋ ≤ (n : Int) - 1 :=
    le_of_le_of_eq (Int.floor_le_floor hprod1) hcast
  unfold bot_pick_index
  rw [if_neg (by omega)]
  dsimp only
  rw [min_eq_right hfl1, max_eq_right hfl0]

theorem bot_pick_index_floor_formula_witness :
    bot_pick_index 2 2 = ⌊(max 0 (min 1 (2 : ℝ))) ^ (1.2 : ℝ) * (((2 : Nat) : ℝ) - 1)⌋ :=
  bot_pick_index_floor_formula 2 2 (by norm_num)

/-! ### C1: restart on a finished room is a no-op apart from bot removal -/

/-- Claim C1 (behavior the code actually has): on a room in phase finished,
`restart_same_lobby` removes the bots but then `start_game` returns
immediately because the phase is not lobby -- no bot refill, no score
reset, no redeal, and the phase stays finished instead of entering
lock_in. -/
theorem restart_after_finish_is_noop (deck : List Card) (botIds : List String)
    (room : Room) (h : room.phase = "finished") :
    (restart_same_lobby deck botIds room).phase = "finished" ∧
    (restart_same_lobby deck botIds room).players = human_players room := by
  have hng : ∀ r : Room, r.phase ≠ "lobby" → start_game deck botIds r = r := by
    intro r hr
    unfold start_game
    rw [if_pos hr]
  unfold restart_same_lobby
  dsimp only
  split
  · rw [hng _ (by simp [h])]
    exact ⟨h, rfl⟩
  · rw [hng _ (by simp [h])]
    exact ⟨h, rfl⟩

def c1room : Room :=
  { code := "ROOM1", phase := "finished", host_id := some "h",
    players := [{ id := "h", name := "Host", score := 3 }, mk_bot "b9" 1] }

theorem restart_after_finish_is_noop_witness :
    (restart_same_lobby new_deck_base ["x1", "x2"] c1room).phase = "finished" ∧
    (restart_same_lobby new_deck_base ["x1", "x2"] c1room).players = human_players c1room :=
  restart_after_finish_is_noop new_deck_base ["x1", "x2"] c1room rfl

/-! ### C5: invalid lock commands are silently ignored -/

def c5room : Room :=
  { code := "ROOM5", phase := "finished",
    players := [{ id := "h1", name := "A", hand := [⟨"S", 10⟩] }] }

/-- Counterexample to claim C5: a lock command sent while the phase is not
lock_in leaves the state unchanged but sends no error message at all (the
handler just continues), contradicting the claimed structured error. -/
theorem lock_violation_sends_no_error :
    c5room.phase ≠ "lock_in" ∧ lock_cmd c5room "h1" "S-10" = (c5room, none) := by
  constructor
  · decide
  · rfl

/-- Claim C5 as amended: a lock command that violates its precondition
(wrong phase, or no card of the sender's hand matches the named id) is
silently ignored: the room state is unchanged and no message of any kind is
sent to the connection. -/
theorem lock_violation_silent_noop (room : Room) (pid cid : String)
    (h : room.phase ≠ "lock_in" ∨
         ∀ you, find_player room pid = some you → ∀ c ∈ you.hand, card_id c ≠ cid) :
    lock_cmd room pid cid = (room, none) := by
  unfold lock_cmd
  by_cases hp : room.phase = "lock_in"
  · rw [if_neg (by simp [hp])]
    rcases h with h | h
    · exact absurd hp h
    · cases hf : find_player room pid with
      | none => rfl
      | some you =>
          by_cases hl : you.locked
          · simp [hl]
          · by_cases hc : cid = ""
            · simp [hl, hc]
            · have hidx : you.hand.findIdx? (fun c => card_id c = cid) = none := by
                rw [List.findIdx?_eq_none_iff]
                intro c hcmem
                simpa using h you hf c hcmem
              simp [hl, hc, hidx]
  · rw [if_pos (by simp [hp])]

theorem lock_violation_silent_noop_witness :
    lock_cmd c5room "h1" "S-3" = (c5room, none) :=
  lock_violation_silent_noop c5room "h1" "S-3" (Or.inl (by decide))

/-! ### C3: the point value of a single winner -/

theorem compute_reveal_points (room : Room) (order : List String) :
    (compute_reveal room order).points =
      winner_points room (compute_reveal room order).winnerId := rfl

/-- Claim C3: for every room and every single (non-explosion) winner found
among the players, the awarded point value is 2 when `aftershock_next` is
set (whatever the streak), otherwise 2 when the winner's streak is already
at least 2, and otherwise 1. -/
theorem single_winner_point_value (room : Room) (order : List String)
    (wid : String) (w : Player)
    (hexp : (compute_reveal room order).explosion = false)
    (hwin : (compute_reveal room order).winnerId = some wid)
    (hw : find_player room wid = some w) :
    (room.aftershock_next = true → (compute_reveal room order).points = 2) ∧
    (room.aftershock_next = false → 2 ≤ w.win_streak →
      (compute_reveal room order).points = 2) ∧
    (room.aftershock_next = false → w.win_streak < 2 →
      (compute_reveal room order).points = 1) := by
  have hpts : (compute_reveal room order).points = round_point_value room w := by
    rw [compute_reveal_points, hwin]
    unfold winner_points
    dsimp only
    rw [hw]
  rw [hpts]
  unfold round_point_value
  refine ⟨fun ha => by simp [ha], fun ha hs => by simp [ha, hs], fun ha hs => ?_⟩
  have : ¬ (2 ≤ w.win_streak) := by omega
  simp [ha, this]

def c3room : Room :=
  { code := "ROOM3", phase := "lock_in", round := 1,
    players := [{ id := "a", name := "A", hand := [⟨"H", 2⟩] },
                { id := "b", name := "B", hand := [⟨"H", 3⟩] }],
    pending_plays := [("a", ⟨"S", 10⟩), ("b", ⟨"S", 5⟩)] }

theorem single_winner_point_value_witness :
    (c3room.aftershock_next = true → (compute_reveal c3room ["a", "b"]).points = 2) ∧
    (c3room.aftershock_next = false →
      2 ≤ ({ id := "a", name := "A", hand := [(⟨"H", 2⟩ : Card)] } : Player).win_streak →
      (compute_reveal c3room ["a", "b"]).points = 2) ∧
    (c3room.aftershock_next = false →
      ({ id := "a", name := "A", hand := [(⟨"H", 2⟩ : Card)] } : Player).win_streak < 2 →
      (compute_reveal c3room ["a", "b"]).points = 1) :=
  single_winner_point_value c3room ["a", "b"] "a"
    { id := "a", name := "A", hand := [⟨"H", 2⟩] }
    (by decide) (by decide) (by decide)

/-! ### C2: the explosion criterion -/

theorem foldl_max_spec : ∀ (vs : List Nat) (v : Nat),
    (vs.foldl Nat.max v = v ∨ vs.foldl Nat.max v ∈ vs) ∧
    v ≤ vs.foldl Nat.max v ∧ (∀ a ∈ vs, a ≤ vs.foldl Nat.max v)
  | [], v => by simp
  | a :: t, v => by
      have ih := foldl_max_spec t (Nat.max v a)
      simp only [List.foldl_cons]
      refine ⟨?_, ?_, ?_⟩
      · rcases ih.1 with h | h
        · have hm : Nat.max v a = v ∨ Nat.max v a = a := max_choice v a
          rcases hm with hm | hm
          · exact Or.inl (by rw [h, hm])
          · exact Or.inr (by rw [h, hm]; exact List.mem_cons_self _ _)
        · exact Or.inr (List.mem_cons_of_mem _ h)
      · exact le_trans (le_max_left v a) ih.2.1
      · intro b hb
        rcases List.mem_cons.mp hb with hb | hb
        · rw [hb]
          exact le_trans (le_max_right v a) ih.2.1
        · exact ih.2.2 b hb

theorem foldl_min_spec : ∀ (vs : List Nat) (v : Nat),
    (vs.foldl Nat.min v = v ∨ vs.foldl Nat.min v ∈ vs) ∧
    vs.foldl Nat.min v ≤ v ∧ (∀ a ∈ vs, vs.foldl Nat.min v ≤ a)
  | [], v => by simp
  | a :: t, v => by
      have ih := foldl_min_spec t (Nat.min v a)
      simp only [List.foldl_cons]
      refine ⟨?_, ?_, ?_⟩
      · rcases ih.1 with h | h
        · have hm : Nat.min v a = v ∨ Nat.min v a = a := min_choice v a
          rcases hm with hm | hm
          · exact Or.inl (by rw [h, hm])
          · exact Or.inr (by rw [h, hm]; exact List.mem_cons_self _ _)
        · exact Or.inr (List.mem_cons_of_mem _ h)
      · exact le_trans ih.2.1 (min_le_left v a)
      · intro b hb
        rcases List.mem_cons.mp hb with hb | hb
        · rw [hb]
          exact le_trans ih.2.1 (min_le_right v a)
        · exact ih.2.2 b hb

/-- `best_value` really is the unique extremum of a nonempty rank list:
the maximum on a normal round, the minimum on a joker round. -/
theorem best_value_eq (joker : Bool) (ranks : List Nat) (m : Nat)
    (hmem : m ∈ ranks)
    (hext : ∀ r ∈ ranks, if joker then m ≤ r else r ≤ m) :
    best_value joker ranks = m := by
  cases ranks with
  | nil => cases hmem
  | cons v vs =>
      cases joker with
      | false =>
          simp only [if_false, Bool.false_eq_true] at hext
          unfold best_value
          have hspec := foldl_max_spec vs v
          have hle : vs.foldl Nat.max v ≤ m := by
            rcases hspec.1 with h | h
            · rw [h]; exact hext v (List.mem_cons_self _ _)
            · exact hext _ (List.mem_cons_of_mem _ h)
          have hge : m ≤ vs.foldl Nat.max v := by
            rcases List.mem_cons.mp hmem with hm | hm
            · rw [hm]; exact hspec.2.1
            · exact hspec.2.2 m hm
          simpa using le_antisymm hle hge
      | true =>
          simp only [if_true] at hext
          unfold best_value
          have hspec := foldl_min_spec vs v
          have hge : m ≤ vs.foldl Nat.min v := by
            rcases hspec.1 with h | h
            · rw [h]; exact hext v (List.mem_cons_self _ _)
            · exact hext _ (List.mem_cons_of_mem _ h)
          have hle : vs.foldl Nat.min v ≤ m := by
            rcases List.mem_cons.mp hmem with hm | hm
            · rw [hm]; exact hspec.2.1
            · exact hspec.2.2 m hm
          simpa using le_antisymm hle hge

theorem compute_reveal_explosion (room : Room) (order : List String) :
    (compute_reveal room order).explosion =
      decide (1 < (reveal_top_ids room order).length) := rfl

/-- Claim C2: over the locked plays of the seated players (the reveal order
is a permutation of the player ids), the round is an explosion iff at least
two players played a card of the extremal rank m, where m is extremal for
the maximum on a normal round and for the minimum on a joker round; a joker
round is exactly a round with positive number divisible by 5. -/
theorem explosion_iff_extremal_shared (room : Room) (order : List String) (m : Nat)
    (hne : order ≠ [])
    (hperm : order.Perm (room.players.map (fun p => p.id)))
    (hmem : m ∈ (reveal_values room order).map (fun x => x.2))
    (hext : ∀ r ∈ (reveal_values room order).map (fun x => x.2),
      if is_joker_round room then m ≤ r else r ≤ m) :
    (is_joker_round room = true ↔ (0 < room.round ∧ room.round % 5 = 0)) ∧
    ((compute_reveal room order).explosion = true ↔
      2 ≤ ((reveal_values room order).filter (fun x => x.2 = m)).length) := by
  constructor
  · simp [is_joker_round]
  · have hbest : reveal_best room order = m :=
      best_value_eq (is_joker_round room) _ m hmem hext
    rw [compute_reveal_explosion]
    unfold reveal_top_ids
    rw [hbest, List.length_map, decide_eq_true_iff]
    omega

def c2room : Room :=
  { code := "ROOM2", phase := "lock_in", round := 5,
    players := [{ id := "a", name := "A", hand := [⟨"C", 2⟩] },
                { id := "b", name := "B", hand := [⟨"C", 3⟩] },
                { id := "c", name := "C", hand := [⟨"C", 4⟩] }],
    pending_plays := [("a", ⟨"S", 11⟩), ("b", ⟨"H", 3⟩), ("c", ⟨"D", 7⟩)] }

theorem explosion_iff_extremal_shared_witness :
    ((is_joker_round c2room = true ↔ (0 < c2room.round ∧ c2room.round % 5 = 0)) ∧
     ((compute_reveal c2room ["a", "b", "c"]).explosion = true ↔
       2 ≤ ((reveal_values c2room ["a", "b", "c"]).filter
         (fun x => x.2 = 3)).length)) :=
  explosion_iff_extremal_shared c2room ["a", "b", "c"] 3
    (by decide) (by decide) (by decide) (by decide)

/-! ### C4: the deal is even, disjoint, and discards the remainder -/

theorem assign_hands_length (deckT : List Card) (each : Nat) :
    ∀ (ps : List Player) (i : Nat), (assign_hands deckT each i ps).length = ps.length
  | [], _ => rfl
  | _ :: ps, i => by
      simp [assign_hands, assign_hands_length deckT each ps (i + each)]

theorem assign_hands_hand_sub (deckT : List Card) (each : Nat) :
    ∀ (ps : List Player) (i : Nat), ∀ q ∈ assign_hands deckT each i ps,
      ∀ c ∈ q.hand, c ∈ deckT.drop i
  | [], _, q, hq => by cases hq
  | p :: ps, i, q, hq => by
      rcases List.mem_cons.mp hq with hq | hq
      · intro c hc
        rw [hq] at hc
        exact List.take_subset _ _ hc
      · intro c hc
        have h2 := assign_hands_hand_sub deckT each ps (i + each) q hq c hc
        have : deckT.drop (i + each) = (deckT.drop i).drop each := by
          rw [List.drop_drop, Nat.add_comm]
        rw [this] at h2
        exact List.drop_subset _ _ h2

theorem assign_hands_hand_len (deckT : List Card) (each : Nat) :
    ∀ (ps : List Player) (i : Nat), i + each * ps.length ≤ deckT.length →
      ∀ q ∈ assign_hands deckT each i ps, q.hand.length = each
  | [], _, _, q, hq => by cases hq
  | p :: ps, i, hlen, q, hq => by
      rcases List.mem_cons.mp hq with hq | hq
      · rw [hq]
        simp only [List.length_take, List.length_drop]
        have : each * (p :: ps).length = each * ps.length + each := by
          simp [Nat.mul_succ]
        omega
      · refine assign_hands_hand_len deckT each ps (i + each) ?_ q hq
        have : each * (p :: ps).length = each * ps.length + each := by
          simp [Nat.mul_succ]
        omega

theorem assign_hands_pairwise (deckT : List Card) (each : Nat)
    (hnd : deckT.Nodup) :
    ∀ (ps : List Player) (i : Nat),
      ((assign_hands deckT each i ps).map (fun p => p.hand)).Pairwise List.Disjoint
  | [], _ => by simp [assign_hands]
  | p :: ps, i => by
      simp only [assign_hands, List.map_cons]
      refine List.Pairwise.cons ?_ (assign_hands_pairwise deckT each hnd ps (i + each))
      intro h2 hh2 c hc hc2
      rcases List.mem_map.mp hh2 with ⟨q, hq, hqh⟩
      have hcdrop : c ∈ (deckT.drop i).drop each := by
        rw [List.drop_drop]
        exact assign_hands_hand_sub deckT each ps (i + each) q hq c
          (by rw [hqh]; exact hc2)
      exact List.disjoint_take_drop (l := deckT.drop i) (m := each) (n := each)
        (List.Nodup.sublist (List.drop_sublist _ _) hnd) (le_refl each) hc hcdrop

/-- Claim C4: dealing from a duplicate-free 52-card deck to n players (n at
least 1) gives every player exactly 52 / n cards, pairwise disjoint hands,
and none of the 52 mod n leftover cards is dealt to anyone. -/
theorem deal_equally_even_disjoint (deck : List Card) (room : Room)
    (hn : 1 ≤ room.players.length) (hnd : deck.Nodup) (hlen : deck.length = 52) :
    (deal_equally deck room).players.length = room.players.length ∧
    (∀ q ∈ (deal_equally deck room).players,
      q.hand.length = 52 / room.players.length) ∧
    (((deal_equally deck room).players.map (fun p => p.hand)).Pairwise List.Disjoint) ∧
    (∀ c ∈ deck.drop ((52 / room.players.length) * room.players.length),
      ∀ q ∈ (deal_equally deck room).players, c ∉ q.hand) := by
  have hn0 : room.players.length ≠ 0 := by omega
  unfold deal_equally
  rw [if_neg hn0]
  dsimp only
  rw [hlen]
  set n := room.players.length with hdefn
  set each := 52 / n with hdefe
  set deckT := deck.take (each * n) with hdefT
  have hTlen : deckT.length = each * n := by
    rw [hdefT, List.length_take, hlen]
    have : each * n ≤ 52 := Nat.div_mul_le_self 52 n
    omega
  have hTnd : deckT.Nodup := List.Nodup.sublist (List.take_sublist _ _) hnd
  refine ⟨assign_hands_length deckT each room.players 0, ?_, ?_, ?_⟩
  · intro q hq
    refine assign_hands_hand_len deckT each room.players 0 ?_ q hq
    rw [hTlen, hdefn]
    omega
  · exact assign_hands_pairwise deckT each hTnd room.players 0
  · intro c hc q hq hcq
    have hcT : c ∈ deckT := by
      have := assign_hands_hand_sub deckT each room.players 0 q hq c hcq
      simpa using this
    exact List.disjoint_take_drop (l := deck) (m := each * n) (n := each * n)
      hnd (le_refl _) hcT hc

def c4room : Room :=
  { code := "ROOM4", phase := "lobby",
    players := [{ id := "a", name := "A" }, { id := "b", name := "B" },
                { id := "c", name := "C" }] }

theorem deal_equally_even_disjoint_witness :
    (deal_equally new_deck_base c4room).players.length = c4room.players.length ∧
    (∀ q ∈ (deal_equally new_deck_base c4room).players,
      q.hand.length = 52 / c4room.players.length) ∧
    (((deal_equally new_deck_base c4room).players.map
      (fun p => p.hand)).Pairwise List.Disjoint) ∧
    (∀ c ∈ new_deck_base.drop ((52 / c4room.players.length) * c4room.players.length),
      ∀ q ∈ (deal_equally new_deck_base c4room).players, c ∉ q.hand) :=
  deal_equally_even_disjoint new_deck_base c4room
    (by decide) (by decide) (by decide)

/-! ### C8: the deadline auto-lock -/

/-- Placeholder player used only as the default of positional lookups in
theorem statements. -/
def nobody : Player := { id := "", name := "" }

theorem auto_lock_players_len (choice : String → Nat) :
    ∀ (ps : List Player) (pend : List (String × Card)),
      (auto_lock_players choice ps pend).1.length = ps.length
  | [], _ => rfl
  | p :: ps, pend => by
      unfold auto_lock_players
      split
      · dsimp only
        simp [auto_lock_players_len choice ps]
      · dsimp only
        simp [auto_lock_players_len choice ps]

theorem auto_lock_players_lookup_frozen (choice : String → Nat) :
    ∀ (ps : List Player) (pend : List (String × Card)) (k : String),
      k ∉ ps.map (fun p => p.id) →
      dictGet k (auto_lock_players choice ps pend).2 = dictGet k pend
  | [], _, _, _ => rfl
  | p :: ps, pend, k, hk => by
      rw [List.map_cons, List.mem_cons] at hk
      push_neg at hk
      unfold auto_lock_players
      split
      · dsimp only
        rw [auto_lock_players_lookup_frozen choice ps _ k hk.2,
          dictGet_dictInsert_ne hk.1]
      · dsimp only
        exact auto_lock_players_lookup_frozen choice ps pend k hk.2

theorem auto_lock_players_spec (choice : String → Nat) :
    ∀ (ps : List Player) (pend : List (String × Card)),
      (ps.map (fun p => p.id)).Nodup →
      ∀ i, i < ps.length →
        ((ps.getD i nobody).locked = true →
          (auto_lock_players choice ps pend).1.getD i nobody = ps.getD i nobody) ∧
        ((ps.getD i nobody).locked = false → (ps.getD i nobody).hand = [] →
          (auto_lock_players choice ps pend).1.getD i nobody = ps.getD i nobody) ∧
        ((ps.getD i nobody).locked = false → (ps.getD i nobody).hand ≠ [] →
          ∃ c ∈ (ps.getD i nobody).hand,
            (auto_lock_players choice ps pend).1.getD i nobody =
              { ps.getD i nobody with
                hand := (ps.getD i nobody).hand.erase c, locked := true } ∧
            dictGet (ps.getD i nobody).id (auto_lock_players choice ps pend).2 = some c)
  | [], _, _, i, hi => absurd hi (by simp)
  | p :: ps, pend, hids, 0, hi => by
      rw [List.map_cons, List.nodup_cons] at hids
      obtain ⟨hpid, hids2⟩ := hids
      unfold auto_lock_players
      split
      · next h =>
          dsimp only
          simp only [List.getD_cons_zero]
          refine ⟨?_, ?_, ?_⟩
          · intro hlock
            rw [h.1] at hlock
            cases hlock
          · intro _ hempty
            exact absurd hempty h.2
          · intro _ _
            refine ⟨_, List.get_mem _ _ _, rfl, ?_⟩
            rw [auto_lock_players_lookup_frozen choice ps _ p.id hpid,
              dictGet_dictInsert_self]
      · next h =>
          dsimp only
          refine ⟨fun _ => rfl, fun _ _ => rfl, ?_⟩
          intro hlock hhand
          simp only [List.getD_cons_zero] at hlock hhand
          rw [Classical.not_and_iff_or_not_not] at h
          rcases h with h | h
          · exact absurd hlock h
          · exact absurd (not_not.mp h) hhand
  | p :: ps, pend, hids, Nat.succ i, hi => by
      rw [List.map_cons, List.nodup_cons] at hids
      obtain ⟨hpid, hids2⟩ := hids
      have hi2 : i < ps.length := by
        rw [List.length_cons] at hi
        omega
      unfold auto_lock_players
      split
      · dsimp only
        simp only [List.getD_cons_succ]
        exact auto_lock_players_spec choice ps _ hids2 i hi2
      · dsimp only
        simp only [List.getD_cons_succ]
        exact auto_lock_players_spec choice ps pend hids2 i hi2

/-- Claim C8: when the deadline sweep of `timer_countdown` runs, every
unlocked player with a non-empty hand is auto-locked -- some card of their
hand (the one picked by the random choice) is removed from the hand,
recorded as their pending play, and their locked flag is set -- while an
unlocked player with an empty hand is skipped unchanged. -/
theorem deadline_auto_lock (room : Room) (choice : String → Nat)
    (hids : (room.players.map (fun p => p.id)).Nodup)
    (i : Nat) (hi : i < room.players.length) :
    (auto_lock choice room).players.length = room.players.length ∧
    (((room.players.getD i nobody).locked = false ∧
        (room.players.getD i nobody).hand ≠ []) →
      ∃ c ∈ (room.players.getD i nobody).hand,
        (auto_lock choice room).players.getD i nobody =
          { room.players.getD i nobody with
            hand := (room.players.getD i nobody).hand.erase c, locked := true } ∧
        dictGet (room.players.getD i nobody).id
          (auto_lock choice room).pending_plays = some c) ∧
    (((room.players.getD i nobody).locked = false ∧
        (room.players.getD i nobody).hand = []) →
      (auto_lock choice room).players.getD i nobody = room.players.getD i nobody) := by
  have hspec := auto_lock_players_spec choice room.players room.pending_plays hids i hi
  refine ⟨auto_lock_players_len choice room.players room.pending_plays, ?_, ?_⟩
  · intro h
    exact hspec.2.2 h.1 h.2
  · intro h
    exact hspec.2.1 h.1 h.2

def c8room : Room :=
  { code := "ROOM8", phase := "lock_in", round := 1,
    players := [{ id := "a", name := "A", hand := [⟨"S", 9⟩], locked := true },
                { id := "b", name := "B", hand := [⟨"H", 4⟩, ⟨"D", 12⟩] },
                { id := "c", name := "C", hand := [] }],
    pending_plays := [("a", ⟨"S", 2⟩)] }

theorem deadline_auto_lock_witness :
    (auto_lock (fun _ => 0) c8room).players.length = c8room.players.length ∧
    (((c8room.players.getD 1 nobody).locked = false ∧
        (c8room.players.getD 1 nobody).hand ≠ []) →
      ∃ c ∈ (c8room.players.getD 1 nobody).hand,
        (auto_lock (fun _ => 0) c8room).players.getD 1 nobody =
          { c8room.players.getD 1 nobody with
            hand := (c8room.players.getD 1 nobody).hand.erase c, locked := true } ∧
        dictGet (c8room.players.getD 1 nobody).id
          (auto_lock (fun _ => 0) c8room).pending_plays = some c) ∧
    (((c8room.players.getD 1 nobody).locked = false ∧
        (c8room.players.getD 1 nobody).hand = []) →
      (auto_lock (fun _ => 0) c8room).players.getD 1 nobody =
        c8room.players.getD 1 nobody) :=
  deadline_auto_lock c8room (fun _ => 0) (by decide) 1 (by decide)

/-! ### C6: keys of pending_plays versus the player roster -/

/-- The claimed invariant: every key of `pending_plays` is the id of a
currently seated player. -/
def pending_keys_ok (room : Room) : Prop :=
  ∀ k ∈ room.pending_plays.map Prod.fst, k ∈ room.players.map (fun p => p.id)

instance (room : Room) : Decidable (pending_keys_ok room) := by
  unfold pending_keys_ok
  infer_instance

def c6room : Room :=
  { code := "ROOM6", phase := "lock_in", round := 1, host_id := some "a",
    players := [{ id := "a", name := "A", locked := true },
                { id := "b", name := "B", hand := [⟨"S", 5⟩] }],
    pending_plays := [("a", ⟨"S", 7⟩)] }

/-- Counterexample to claim C6: the disconnect cleanup removes the player
but leaves their pending play in the dict, so the invariant is not
preserved by player removal. -/
theorem pending_keys_broken_by_removal :
    pending_keys_ok c6room ∧ ¬ pending_keys_ok (remove_player c6room "a") := by
  constructor
  · decide
  · decide

theorem map_players_id (ps : List Player) (f : Player → Player)
    (hf : ∀ p, (f p).id = p.id) :
    (ps.map f).map (fun p => p.id) = ps.map (fun p => p.id) := by
  induction ps with
  | nil => rfl
  | cons p ps ih => simp [hf, ih]

theorem auto_lock_players_ids (choice : String → Nat) :
    ∀ (ps : List Player) (pend : List (String × Card)),
      (auto_lock_players choice ps pend).1.map (fun p => p.id) =
        ps.map (fun p => p.id)
  | [], _ => rfl
  | p :: ps, pend => by
      unfold auto_lock_players
      split
      · dsimp only
        simp [auto_lock_players_ids choice ps]
      · dsimp only
        simp [auto_lock_players_ids choice ps]

theorem auto_lock_players_keys (choice : String → Nat) :
    ∀ (ps : List Player) (pend : List (String × Card)) (k : String),
      k ∈ (auto_lock_players choice ps pend).2.map Prod.fst →
      k ∈ pend.map Prod.fst ∨ k ∈ ps.map (fun p => p.id)
  | [], _, _ => fun h => Or.inl h
  | p :: ps, pend, k => by
      unfold auto_lock_players
      split
      · dsimp only
        intro h
        rcases auto_lock_players_keys choice ps _ k h with h2 | h2
        · rcases mem_keys_dictInsert h2 with h3 | h3
          · exact Or.inr (by rw [h3, List.map_cons]; exact List.mem_cons_self _ _)
          · exact Or.inl h3
        · rw [List.map_cons]
          exact Or.inr (List.mem_cons_of_mem _ h2)
      · dsimp only
        intro h
        rcases auto_lock_players_keys choice ps pend k h with h2 | h2
        · exact Or.inl h2
        · rw [List.map_cons]
          exact Or.inr (List.mem_cons_of_mem _ h2)

/-- Claim C6 as amended: the lock command, bot locking and the timer
auto-lock each record pending plays only under ids of currently seated
players, so they preserve the key invariant; player removal on disconnect
does not (see the counterexample), leaving a stale key until the round
resolves. -/
theorem pending_keys_preserved_by_lock_ops :
    (∀ (room : Room) (pid cid : String), pending_keys_ok room →
      pending_keys_ok (lock_cmd room pid cid).1) ∧
    (∀ (room : Room) (bot : Player), bot ∈ room.players → pending_keys_ok room →
      pending_keys_ok (bot_choose room bot)) ∧
    (∀ (room : Room) (choice : String → Nat), pending_keys_ok room →
      pending_keys_ok (auto_lock choice room)) := by
  refine ⟨?_, ?_, ?_⟩
  · intro room pid cid hinv
    unfold lock_cmd
    split
    · exact hinv
    · split
      · exact hinv
      · next you hf =>
          split
          · exact hinv
          · split
            · exact hinv
            · split
              · exact hinv
              · intro k hk
                dsimp only at hk ⊢
                rw [map_players_id _ _ (fun p => by
                  by_cases hp : p.id = pid <;> simp [hp])]
                rcases mem_keys_dictInsert hk with hk | hk
                · rw [hk]
                  obtain ⟨hmem, hid⟩ := find_player_mem hf
                  exact List.mem_map.mpr ⟨you, hmem, hid⟩
                · exact hinv k hk
  · intro room bot hmem hinv
    unfold bot_choose
    split
    · exact hinv
    · split
      · exact hinv
      · intro k hk
        dsimp only at hk ⊢
        rw [map_players_id _ _ (fun p => by
          by_cases hp : p.id = bot.id <;> simp [hp])]
        rcases mem_keys_dictInsert hk with hk | hk
        · rw [hk]
          exact List.mem_map.mpr ⟨bot, hmem, rfl⟩
        · exact hinv k hk
  · intro room choice hinv
    intro k hk
    unfold auto_lock at hk ⊢
    dsimp only at hk ⊢
    rw [auto_lock_players_ids choice room.players room.pending_plays]
    rcases auto_lock_players_keys choice room.players room.pending_plays k hk with h | h
    · exact hinv k h
    · exact h

def c6lockroom : Room :=
  { code := "ROOML", phase := "lock_in", round := 1,
    players := [{ id := "a", name := "A", hand := [⟨"H", 4⟩] }],
    pending_plays := [] }

def c6botroom : Room :=
  { code := "ROOMB", phase := "lock_in", round := 1,
    players := [{ id := "z", name := "Bot 1", is_bot := true, hand := [⟨"D", 8⟩] }],
    pending_plays := [] }

theorem pending_keys_preserved_by_lock_ops_witness :
    pending_keys_ok (lock_cmd c6lockroom "a" "H-4").1 ∧
    pending_keys_ok (bot_choose c6botroom
      { id := "z", name := "Bot 1", is_bot := true, hand := [(⟨"D", 8⟩ : Card)] }) ∧
    pending_keys_ok (auto_lock (fun _ => 0) c6room) :=
  ⟨pending_keys_preserved_by_lock_ops.1 c6lockroom "a" "H-4" (by decide),
   pending_keys_preserved_by_lock_ops.2.1 c6botroom
     { id := "z", name := "Bot 1", is_bot := true, hand := [⟨"D", 8⟩] }
     (by decide) (by decide),
   pending_keys_preserved_by_lock_ops.2.2 c6room (fun _ => 0) (by decide)⟩

/-! ### C9: score monotonicity within a game, reset only by start -/

/-- Every player of the second roster descends from a player of the first
roster with the same id and no smaller score. -/
def scores_mono (ps qs : List Player) : Prop :=
  ∀ q ∈ qs, ∃ p ∈ ps, q.id = p.id ∧ p.score ≤ q.score

theorem scores_mono_refl (ps : List Player) : scores_mono ps ps :=
  fun q hq => ⟨q, hq, rfl, le_refl _⟩

theorem scores_mono_map (ps : List Player) (f : Player → Player)
    (hf : ∀ p, (f p).id = p.id ∧ p.score ≤ (f p).score) :
    scores_mono ps (ps.map f) := by
  intro q hq
  rcases List.mem_map.mp hq with ⟨p, hp, rfl⟩
  exact ⟨p, hp, (hf p).1, (hf p).2⟩

theorem scores_mono_trans {ps qs rs : List Player}
    (h1 : scores_mono ps qs) (h2 : scores_mono qs rs) : scores_mono ps rs := by
  intro r hr
  rcases h2 r hr with ⟨q, hq, hid, hle⟩
  rcases h1 q hq with ⟨p, hp, hid2, hle2⟩
  exact ⟨p, hp, hid.trans hid2, le_trans hle2 hle⟩

theorem finish_round_players (room : Room) (entry : HistEntry) :
    (finish_round room entry).players =
      room.players.map (fun p => { p with locked := false }) := by
  unfold finish_round
  dsimp only
  split <;> rfl

theorem apply_scoring_scores_mono (room : Room) (rc : RevealCalc) :
    scores_mono room.players (apply_scoring room rc).players := by
  unfold apply_scoring
  split
  · exact scores_mono_map _ _ (fun p => ⟨rfl, le_refl _⟩)
  · split
    · next wid _ =>
        refine scores_mono_map _ _ (fun p => ?_)
        by_cases hp : p.id = wid <;> simp [hp]
    · exact scores_mono_refl _

theorem apply_reveal_scores_mono (room : Room) (rc : RevealCalc) :
    scores_mono room.players (apply_reveal room rc).players := by
  unfold apply_reveal
  rw [show scores_mono room.players (finish_round (apply_scoring room rc) _).players ↔
      scores_mono room.players
        ((apply_scoring room rc).players.map (fun p => { p with locked := false }))
    from by rw [finish_round_players]]
  exact scores_mono_trans (apply_scoring_scores_mono room rc)
    (scores_mono_map _ _ (fun p => ⟨rfl, le_refl _⟩))

theorem lock_cmd_scores_mono (room : Room) (pid cid : String) :
    scores_mono room.players (lock_cmd room pid cid).1.players := by
  unfold lock_cmd
  split
  · exact scores_mono_refl _
  · split
    · exact scores_mono_refl _
    · split
      · exact scores_mono_refl _
      · split
        · exact scores_mono_refl _
        · split
          · exact scores_mono_refl _
          · dsimp only
            refine scores_mono_map _ _ (fun p => ?_)
            by_cases hp : p.id = pid <;> simp [hp]

theorem bot_choose_scores_mono (room : Room) (bot : Player) :
    scores_mono room.players (bot_choose room bot).players := by
  unfold bot_choose
  split
  · exact scores_mono_refl _
  · split
    · exact scores_mono_refl _
    · dsimp only
      refine scores_mono_map _ _ (fun p => ?_)
      by_cases hp : p.id = bot.id <;> simp [hp]

theorem auto_lock_players_mem (choice : String → Nat) :
    ∀ (ps : List Player) (pend : List (String × Card)),
      ∀ q ∈ (auto_lock_players choice ps pend).1,
        ∃ p ∈ ps, q.id = p.id ∧ q.score = p.score
  | [], _, q, hq => by cases hq
  | p :: ps, pend, q, hq => by
      rw [show auto_lock_players choice (p :: ps) pend =
        (if h : p.locked = false ∧ p.hand ≠ [] then
          let i : Fin p.hand.length :=
            ⟨choice p.id % p.hand.length, Nat.mod_lt _ (List.length_pos.mpr h.2)⟩
          let chosen := p.hand.get i
          let p1 := { p with hand := p.hand.erase chosen, locked := true }
          let rest := auto_lock_players choice ps (dictInsert p.id chosen pend)
          (p1 :: rest.1, rest.2)
        else
          let rest := auto_lock_players choice ps pend
          (p :: rest.1, rest.2)) from rfl] at hq
      split at hq
      · dsimp only at hq
        rcases List.mem_cons.mp hq with hq | hq
        · exact ⟨p, List.mem_cons_self _ _, by rw [hq], by rw [hq]⟩
        · rcases auto_lock_players_mem choice ps _ q hq with ⟨p2, hp2, h1, h2⟩
          exact ⟨p2, List.mem_cons_of_mem _ hp2, h1, h2⟩
      · dsimp only at hq
        rcases List.mem_cons.mp hq with hq | hq
        · exact ⟨p, List.mem_cons_self _ _, by rw [hq], by rw [hq]⟩
        · rcases auto_lock_players_mem choice ps pend q hq with ⟨p2, hp2, h1, h2⟩
          exact ⟨p2, List.mem_cons_of_mem _ hp2, h1, h2⟩

theorem auto_lock_scores_mono (room : Room) (choice : String → Nat) :
    scores_mono room.players (auto_lock choice room).players := by
  intro q hq
  unfold auto_lock at hq
  dsimp only at hq
  rcases auto_lock_players_mem choice room.players room.pending_plays q hq
    with ⟨p, hp, h1, h2⟩
  exact ⟨p, hp, h1, le_of_eq h2.symm⟩

theorem remove_player_scores_mono (room : Room) (pid : String) :
    scores_mono room.players (remove_player room pid).players := by
  intro q hq
  unfold remove_player at hq
  dsimp only at hq
  split at hq <;> split at hq <;>
    exact ⟨q, List.mem_of_mem_filter hq, rfl, le_refl _⟩

theorem assign_hands_mem (deckT : List Card) (each : Nat) :
    ∀ (ps : List Player) (i : Nat), ∀ q ∈ assign_hands deckT each i ps,
      ∃ p ∈ ps, q.id = p.id ∧ q.score = p.score
  | [], _, q, hq => by cases hq
  | p :: ps, i, q, hq => by
      rcases List.mem_cons.mp hq with hq | hq
      · exact ⟨p, List.mem_cons_self _ _, by rw [hq], by rw [hq]⟩
      · rcases assign_hands_mem deckT each ps (i + each) q hq with ⟨p2, hp2, h1, h2⟩
        exact ⟨p2, List.mem_cons_of_mem _ hp2, h1, h2⟩

/-- Claim C9: no in-game operation (human lock, bot lock, timer auto-lock,
reveal-and-advance, disconnect removal) ever decreases a surviving player's
score, and `start_game` -- the path shared by the start command and (when it
fires) the restart command, like `reset_to_lobby` -- sets every score back
to 0. -/
theorem score_monotone_and_reset :
    (∀ (r r2 : Room), GameStep r r2 → scores_mono r.players r2.players) ∧
    (∀ (deck : List Card) (botIds : List String) (room : Room),
      room.phase = "lobby" → room.starting = false →
      1 ≤ (human_players room).length →
      ∀ p ∈ (start_game deck botIds room).players, p.score = 0) ∧
    (∀ (room : Room), ∀ p ∈ (reset_to_lobby room).players, p.score = 0) := by
  refine ⟨?_, ?_, ?_⟩
  · intro r r2 hstep
    cases hstep with
    | lock pid cid => exact lock_cmd_scores_mono r pid cid
    | bot b hb => exact bot_choose_scores_mono r b
    | auto choice => exact auto_lock_scores_mono r choice
    | reveal order => exact apply_reveal_scores_mono _ _
    | leave pid => exact remove_player_scores_mono r pid
  · intro deck botIds room hph hst hhum p hp
    unfold start_game at hp
    rw [if_neg (by simp [hph]), if_neg (by simp [hst]), if_neg (by omega)] at hp
    dsimp only at hp
    unfold deal_equally at hp
    dsimp only at hp
    split at hp
    · dsimp only at hp
      rcases List.mem_map.mp hp with ⟨p2, _, rfl⟩
      rfl
    · dsimp only at hp
      rcases assign_hands_mem _ _ _ _ p hp with ⟨p2, hp2, _, hsc⟩
      rcases List.mem_map.mp hp2 with ⟨p3, _, rfl⟩
      rw [hsc]
  · intro room p hp
    unfold reset_to_lobby at hp
    dsimp only at hp
    rcases List.mem_map.mp hp with ⟨p2, _, rfl⟩
    rfl

def c9room : Room :=
  { code := "ROOM9", phase := "lock_in", round := 1,
    players := [{ id := "a", name := "A", hand := [⟨"C", 6⟩], locked := true, score := 2 },
                { id := "b", name := "B", hand := [⟨"C", 7⟩], locked := true, score := 1 }],
    pending_plays := [("a", ⟨"S", 10⟩), ("b", ⟨"S", 5⟩)] }

def c9lobby : Room :=
  { code := "ROOM9L", phase := "lobby", target_size := 2, host_id := some "a",
    players := [{ id := "a", name := "A", score := 7 }] }

theorem score_monotone_and_reset_witness :
    scores_mono c9room.players (do_reveal_and_advance c9room ["a", "b"]).players ∧
    (∀ p ∈ (start_game new_deck_base ["bb"] c9lobby).players, p.score = 0) ∧
    (∀ p ∈ (reset_to_lobby c9lobby).players, p.score = 0) :=
  ⟨score_monotone_and_reset.1 c9room (do_reveal_and_advance c9room ["a", "b"])
      (GameStep.reveal c9room ["a", "b"]),
   score_monotone_and_reset.2.1 new_deck_base ["bb"] c9lobby rfl rfl (by decide),
   score_monotone_and_reset.2.2 c9lobby⟩

end Cardgame
